import Mathlib

/- Verification of the clause segmentation and risk classification core of the
   AI Legal Clause Checker (app.py). Strings are modelled as lists of
   characters; the Python regular-expression splits are embedded as explicit
   left-to-right scanning functions with the exact match semantics of the two
   patterns used by the source. -/

/-- ASCII whitespace as recognised by the Python regex class and by strip. -/
def pyIsSpace (c : Char) : Bool :=
  c == ' ' || c == '\t' || c == '\n' || c == '\r' || c == '\x0B' || c == '\x0C'

/-- text.replace of every carriage return by a newline (app.py line 217). -/
def replaceCR (l : List Char) : List Char :=
  l.map fun c => if c == '\r' then '\n' else c

/-- Collapse every maximal run of three or more newlines to exactly two: the
    effect of the re.sub on line 218 of app.py. The counter argument holds the
    number of newlines collected in the current run. -/
def collapseAux : Nat → List Char → List Char
  | k, [] => List.replicate (if 3 ≤ k then 2 else k) '\n'
  | k, c :: rest =>
    if c == '\n' then collapseAux (k + 1) rest
    else List.replicate (if 3 ≤ k then 2 else k) '\n' ++ c :: collapseAux 0 rest

/-- Drop trailing Python whitespace. -/
def dropTrailingWs : List Char → List Char
  | [] => []
  | c :: rest =>
    let r := dropTrailingWs rest
    if r.isEmpty && pyIsSpace c then [] else c :: r

/-- Python str.strip: drop leading and trailing whitespace. -/
def pyStrip (l : List Char) : List Char :=
  dropTrailingWs (l.dropWhile pyIsSpace)

/-- normalize_text (app.py lines 215-219). -/
def normalize_text (text : List Char) : List Char :=
  pyStrip (collapseAux 0 (replaceCR text))

/-- One digit, as matched by the regex class \d over ASCII. -/
def isDigitC (c : Char) : Bool := c.isDigit

/-- One roman-numeral letter of the class [ivxlcdm], case-insensitively. -/
def isRomanC (c : Char) : Bool :=
  ['i', 'v', 'x', 'l', 'c', 'd', 'm'].contains c.toLower

/-- Case-insensitive literal match: consumes the pattern (given lowercase)
    from the front of the input and returns the remaining suffix. -/
def caselessPrefix : List Char → List Char → Option (List Char)
  | [], l => some l
  | _ :: _, [] => none
  | p :: ps, c :: cs => if c.toLower == p then caselessPrefix ps cs else none

/-- Consume a nonempty maximal run of characters satisfying p; fails when the
    first character does not satisfy p.  Embeds a greedy + quantifier whose
    body class is disjoint from what must follow. -/
def afterRun (p : Char → Bool) (l : List Char) : Option (List Char) :=
  if (l.takeWhile p).isEmpty then none else some (l.dropWhile p)

/-- The alternative section\s+\d+ of the heading lookahead, followed by the
    closing \s+ of the lookahead. -/
def matchSectionAlt (l : List Char) : Bool :=
  match caselessPrefix ("section").data l with
  | none => false
  | some r1 =>
    match afterRun pyIsSpace r1 with
    | none => false
    | some r2 =>
      match afterRun isDigitC r2 with
      | none => false
      | some r3 => (afterRun pyIsSpace r3).isSome

/-- Greedy consumption of (\.\d+)* : repeatedly consume a dot followed by at
    least one digit.  The fuel bounds the number of iterations. -/
def dotRuns : Nat → List Char → List Char
  | 0, l => l
  | fuel + 1, l =>
    match l with
    | '.' :: rest =>
      if (rest.takeWhile isDigitC).isEmpty then l
      else dotRuns fuel (rest.dropWhile isDigitC)
    | _ => l

/-- The alternative \d+(?:\.\d+)* of the heading lookahead, followed by the
    closing \s+.  Backtracking cannot help here: shortening the digit run or
    the dot-group iteration always leaves a digit or a dot where whitespace is
    required, so the greedy maximal parse is the only candidate. -/
def matchNumberAlt (l : List Char) : Bool :=
  match afterRun isDigitC l with
  | none => false
  | some r1 => (afterRun pyIsSpace (dotRuns r1.length r1)).isSome

/-- The alternative [ivxlcdm]+\. of the heading lookahead, followed by the
    closing \s+.  A roman letter is never a dot, so only the maximal roman run
    can be followed by the required dot. -/
def matchRomanAlt (l : List Char) : Bool :=
  match afterRun isRomanC l with
  | none => false
  | some r1 =>
    match r1 with
    | '.' :: r2 => (afterRun pyIsSpace r2).isSome
    | _ => false

/-- The lookahead (?:section\s+\d+|\d+(?:\.\d+)*|[ivxlcdm]+\.)\s+ of the
    section-splitting pattern on app.py line 230, case-insensitively. -/
def headingLookahead (l : List Char) : Bool :=
  matchSectionAlt l || matchNumberAlt l || matchRomanAlt l

/-- Index of the last newline of a list, if any. -/
def lastNLIdx : List Char → Option Nat
  | [] => none
  | c :: rest =>
    match lastNLIdx rest with
    | some j => some (j + 1)
    | none => if c == '\n' then some 0 else none

/-- Match of the section-splitting pattern
    \n(?=heading)|\n\s*\n  at the head of the input (app.py line 230),
    returning the number of consumed characters.  For the second alternative
    the greedy \s* backtracks to the last newline inside the maximal
    whitespace run that follows the first newline. -/
def partMatch (_prev : Option Char) (l : List Char) : Option Nat :=
  match l with
  | '\n' :: rest =>
    if headingLookahead rest then some 1
    else
      match lastNLIdx (rest.takeWhile pyIsSpace) with
      | some j => some (j + 2)
      | none => none
  | _ => none

/-- Match of the sentence-splitting pattern (?<=[.;:])\s+ at the head of the
    input (app.py line 244): the previous character of the scan must be one of
    . ; : and the match is the maximal whitespace run. -/
def sentMatch (prev : Option Char) (l : List Char) : Option Nat :=
  match prev with
  | none => none
  | some p =>
    if p == '.' || p == ';' || p == ':' then
      let w := l.takeWhile pyIsSpace
      if w.isEmpty then none else some w.length
    else none

/-- Left-to-right scan of re.split: at each position try the pattern matcher
    m on the remaining suffix (with the previous character for lookbehind);
    on a match of n characters close the current piece and resume after the
    match, otherwise advance one character.  The fuel dominates the input
    length, so the fuel-exhaustion case is never reached. -/
def splitAuxF (m : Option Char → List Char → Option Nat) :
    Nat → Option Char → List Char → List Char → List (List Char)
  | 0, _, acc, l => [acc ++ l]
  | fuel + 1, prev, acc, l =>
    match l with
    | [] => [acc]
    | c :: rest =>
      match m prev (c :: rest) with
      | some n =>
        acc :: splitAuxF m fuel (some (((c :: rest).take n).getLastD c)) []
          (rest.drop (n - 1))
      | none => splitAuxF m fuel (some c) (acc ++ [c]) rest

/-- re.split of a pattern embedded by the matcher m. -/
def pySplit (m : Option Char → List Char → Option Nat) (l : List Char) :
    List (List Char) :=
  splitAuxF m l.length none [] l

/-- The section candidates of the input (app.py lines 229-232). -/
def section_candidates (t : List Char) : List (List Char) :=
  pySplit partMatch t

/-- The sentence candidates of one section (app.py line 244). -/
def sentence_candidates (part : List Char) : List (List Char) :=
  pySplit sentMatch (pyStrip part)

/-- " ".join of a buffer of sentences. -/
def joinSpace : List (List Char) → List Char
  | [] => []
  | [s] => s
  | s :: t :: ss => s ++ ' ' :: joinSpace (t :: ss)

/-- The inner flush of split_into_clauses (app.py lines 235-240): an empty
    buffer is ignored; otherwise the joined and stripped buffer is emitted
    exactly when it reaches min_chars. -/
def flushChunk (min_chars : Nat) (buf : List (List Char)) : List (List Char) :=
  if buf.isEmpty then []
  else
    let chunk := pyStrip (joinSpace buf)
    if min_chars ≤ chunk.length then [chunk] else []

/-- The greedy sentence-packing loop of split_into_clauses (app.py lines
    242-253): append each sentence to the buffer, measure the joined buffer
    with one leading space, flush the whole buffer when the measure exceeds
    max_chars, and flush the remaining buffer at the end of the section. -/
def packLoop (min_chars max_chars : Nat) :
    List (List Char) → List (List Char) → List (List Char)
  | [], buf => flushChunk min_chars buf
  | s :: rest, buf =>
    let buf2 := buf ++ [s]
    if max_chars < (' ' :: joinSpace buf2).length then
      flushChunk min_chars buf2 ++ packLoop min_chars max_chars rest []
    else packLoop min_chars max_chars rest buf2

/-- Processing of one section candidate; the buffer always starts empty
    because the loop body of app.py lines 251-253 resets it at the end of
    every section. -/
def processPart (min_chars max_chars : Nat) (part : List Char) :
    List (List Char) :=
  packLoop min_chars max_chars (sentence_candidates part) []

/-- The chunks produced by the windowed structural algorithm, before the
    whole-document fallback. -/
def split_core (t : List Char) (min_chars max_chars : Nat) :
    List (List Char) :=
  (section_candidates t).flatMap (processPart min_chars max_chars)

/-- split_into_clauses (app.py lines 221-258). -/
def split_into_clauses (text : List Char) (min_chars : Nat := 250)
    (max_chars : Nat := 1100) : List (List Char) :=
  let t := normalize_text text
  let chunks := split_core t min_chars max_chars
  if chunks.isEmpty && !t.isEmpty then [t] else chunks

/-- The ClauseAnalysis dataclass (app.py lines 143-151). -/
structure ClauseAnalysis where
  clause : List Char
  meaning : List Char
  risk_label : List Char
  risk_score : Int
  why : List Char
  suggestion : Option (List Char) := none
  tags : Option (List (List Char)) := none
deriving DecidableEq

/-- Lowercasing of a string, as str.lower over ASCII. -/
def lowerStr (l : List Char) : List Char := l.map Char.toLower

/-- The RISK_MAP dict of app.py line 173, as a lookup returning none for a
    missing key. -/
def RISK_MAP (l : List Char) : Option Int :=
  if l = ("safe").data then some 1
  else if l = ("review").data then some 2
  else if l = ("risky").data then some 3
  else none

/-- The parsed JSON object returned by the LLM collaborator, restricted to
    the fields read by analyze_with_llm; a missing key is none.  String
    fields are modelled as strings (the str() coercion of the source), and
    risk_score as an integer on which the int() coercion succeeded — when
    int() raises, no ClauseAnalysis is produced and the error is contained by
    the caller (claim C8). -/
structure LlmResponse where
  meaning : Option (List Char) := none
  risk_label : Option (List Char) := none
  risk_score : Option Int := none
  why : Option (List Char) := none
  suggestion : Option (List Char) := none
  tags : Option (List (List Char)) := none

/-- Label resolution of analyze_with_llm (app.py lines 317-319): the raw
    label, defaulted to "Review" when absent, stripped; replaced by exactly
    "Review" when its lowercase form is not a key of RISK_MAP. -/
def resolveLabel (raw : Option (List Char)) : List Char :=
  let label0 := pyStrip (raw.getD ("Review").data)
  if (RISK_MAP (lowerStr label0)).isNone then ("Review").data else label0

/-- Score resolution of analyze_with_llm (app.py lines 320-321): the raw
    score, defaulted to the RISK_MAP score of the resolved label when
    absent, clamped into [1,3].  The .getD 2 default of the lookup is
    unreachable: the resolved label always lowercases to a key of
    RISK_MAP. -/
def resolveScore (rawScore : Option Int) (label : List Char) : Int :=
  max 1 (min 3 (rawScore.getD ((RISK_MAP (lowerStr label)).getD 2)))

/-- The validation and coercion step of analyze_with_llm (app.py lines
    316-331), applied to the parsed response. -/
def analyze_with_llm_validate (clause : List Char) (data : LlmResponse) :
    ClauseAnalysis :=
  let label := resolveLabel data.risk_label
  let score := resolveScore data.risk_score label
  { clause := pyStrip clause
    meaning := pyStrip (data.meaning.getD [])
    risk_label := label
    risk_score := score
    why := pyStrip (data.why.getD [])
    suggestion :=
      (let s := pyStrip (data.suggestion.getD [])
       if s.isEmpty then none else some s)
    tags := data.tags }

/-- The risky keyword list of app.py lines 338-342. -/
def RISKY_KEYWORDS : List (List Char) :=
  [("indemnify").data, ("hold harmless").data,
   ("limitation of liability").data, ("exclusive jurisdiction").data,
   ("binding arbitration").data, ("waiver of jury").data,
   ("auto-renew").data, ("perpetual").data, ("irrevocable").data,
   ("royalty-free").data, ("assign without consent").data,
   ("liquidated damages").data, ("non-compete").data]

/-- The review keyword list of app.py lines 343-346. -/
def REVIEW_KEYWORDS : List (List Char) :=
  [("termination").data, ("30 days").data, ("confidential").data,
   ("governing law").data, ("late fee").data, ("interest").data,
   ("force majeure").data, ("intellectual property").data,
   ("work for hire").data]

/-- The mutable scan state of mock_analyze: score, label, reasons. -/
structure MockState where
  score : Int
  label : List Char
  reasons : List (List Char)
deriving DecidableEq

/-- The reason accumulated for one risky keyword match. -/
def containsTpl (kw : List Char) : List Char :=
  ("Contains \x27").data ++ kw ++ ("\x27.").data

/-- The reason accumulated for one review keyword match. -/
def mentionsTpl (kw : List Char) : List Char :=
  ("Mentions \x27").data ++ kw ++ ("\x27.").data

/-- One iteration of the risky keyword loop (app.py lines 355-357). -/
def riskyStep (text : List Char) (st : MockState) (kw : List Char) :
    MockState :=
  if kw <:+: text then
    ⟨3, ("Risky").data, st.reasons ++ [containsTpl kw]⟩
  else st

/-- One iteration of the review keyword loop (app.py lines 359-361). -/
def reviewStep (text : List Char) (st : MockState) (kw : List Char) :
    MockState :=
  if kw <:+: text then
    ⟨max st.score 2, ("Review").data, st.reasons ++ [mentionsTpl kw]⟩
  else st

/-- The keyword scan of mock_analyze (app.py lines 351-361): every risky
    keyword is tested first; the review keywords are scanned only when the
    score is still below 3. -/
def mockScanState (clause : List Char) : MockState :=
  let text := lowerStr clause
  let st1 := RISKY_KEYWORDS.foldl (riskyStep text) ⟨1, ("Safe").data, []⟩
  if st1.score < 3 then REVIEW_KEYWORDS.foldl (reviewStep text) st1 else st1

/-- The risky keywords that match the lowercased clause, in list order. -/
def riskyHits (clause : List Char) : List (List Char) :=
  RISKY_KEYWORDS.filter fun kw => decide (kw <:+: lowerStr clause)

/-- The review keywords that match the lowercased clause, in list order. -/
def reviewHits (clause : List Char) : List (List Char) :=
  REVIEW_KEYWORDS.filter fun kw => decide (kw <:+: lowerStr clause)

/-- The fixed suggestion texts and meaning of mock_analyze. -/
def RISKY_SUGGESTION : List Char :=
  ("Limit liability to direct damages and mutual caps; avoid perpetual/irrevocable rights; require written consent for assignment; permit court remedies where appropriate.").data

def REVIEW_SUGGESTION : List Char :=
  ("Clarify timelines, notice periods, and mutual obligations; ensure balanced termination and payment terms.").data

def MOCK_MEANING : List Char :=
  ("This clause sets certain obligations/rights. Please verify it aligns with your interests, especially regarding the selected focus.").data

def NO_RED_FLAGS : List Char :=
  ("No obvious red flags found by keyword heuristic.").data

/-- mock_analyze (app.py lines 350-388). -/
def mock_analyze (clause focus jurisdiction : List Char) : ClauseAnalysis :=
  let _ := jurisdiction
  let st := mockScanState clause
  let whyJ := joinSpace st.reasons
  let why := if whyJ.isEmpty then NO_RED_FLAGS else whyJ
  let suggestion :=
    if st.label = ("Risky").data then some RISKY_SUGGESTION
    else if st.label = ("Review").data then some REVIEW_SUGGESTION
    else none
  { clause := pyStrip clause
    meaning := MOCK_MEANING
    risk_label := st.label
    risk_score := st.score
    why := why
    suggestion := suggestion
    tags := some [lowerStr focus] }

/-- The degraded sentinel built by the per-clause exception handler of the
    analysis loop (app.py lines 500-507). -/
def failSentinel (ch e : List Char) : ClauseAnalysis :=
  { clause := pyStrip ch
    meaning := ("(Failed to analyze clause.)").data
    risk_label := ("Review").data
    risk_score := 2
    why := ("Error: ").data ++ e
    suggestion := none
    tags := none }

/-- The analysis loop of app.py lines 493-508: each clause is classified
    independently; a classification that raises is converted to the sentinel
    and never aborts the batch.  The classifier is abstract: Except.error
    models a raised exception with its message. -/
def analysisLoop (classify : List Char → Except (List Char) ClauseAnalysis)
    (chunks : List (List Char)) : List ClauseAnalysis :=
  chunks.map fun ch =>
    match classify ch with
    | Except.ok ca => ca
    | Except.error e => failSentinel ch e

/-- A concrete classifier used to exercise the analysis loop: it fails on the
    clause "b" and otherwise delegates to the heuristic classifier. -/
def demoClassify (ch : List Char) : Except (List Char) ClauseAnalysis :=
  if ch = ("b").data then Except.error (("boom").data)
  else Except.ok (mock_analyze ch [] [])

example : normalize_text ("a\r\n\n\nb").data = ('a' :: '\n' :: '\n' :: ['b']) := by decide

example : section_candidates ("a\n\nb").data = [['a'], ['b']] := by decide

example : section_candidates ("x\n2 Next").data = [['x'], ['2', ' ', 'N', 'e', 'x', 't']] := by decide

example : sentence_candidates ("Hey. You").data = [['H', 'e', 'y', '.'], ['Y', 'o', 'u']] := by decide

example : split_into_clauses ("hi").data = [['h', 'i']] := by decide

example : split_into_clauses ("a.\nb").data 1 1100 = [['a', '.', ' ', 'b']] := by decide

/-- a is obtained from b by deleting characters and by replacing single
    whitespace characters with single spaces, keeping the original order:
    the exact relation between the emitted clauses (whose sentences are
    joined by spaces) and the normalized input. -/
inductive SubseqWs : List Char → List Char → Prop
  | nil (l : List Char) : SubseqWs [] l
  | keep (c : Char) {a l : List Char} :
      SubseqWs a l → SubseqWs (c :: a) (c :: l)
  | skip (c : Char) {a l : List Char} :
      SubseqWs a l → SubseqWs a (c :: l)
  | wsSub (c : Char) {a l : List Char} : pyIsSpace c = true →
      SubseqWs a l → SubseqWs (' ' :: a) (c :: l)

/-- q consists of the given pieces in order, separated by nonempty runs of
    whitespace: the shape a sentence split leaves behind. -/
inductive Interleaved : List (List Char) → List Char → Prop
  | single (s : List Char) : Interleaved [s] s
  | cons (s w : List Char) {ss : List (List Char)} {q : List Char} :
      (∀ c ∈ w, pyIsSpace c = true) → w ≠ [] → Interleaved ss q →
      Interleaved (s :: ss) (s ++ w ++ q)

/- ------------------------------------------------------------------ -/
/- Basic facts about the string helpers.                              -/
/- ------------------------------------------------------------------ -/

theorem dropTrailingWs_sublist (l : List Char) :
    List.Sublist (dropTrailingWs l) l := by
  induction l with
  | nil => exact List.Sublist.refl _
  | cons c rest ih =>
    simp only [dropTrailingWs]
    split
    · exact List.nil_sublist _
    · exact List.Sublist.cons₂ c ih

theorem dropTrailingWs_front (l : List Char) : dropTrailingWs l <+: l := by
  induction l with
  | nil => exact List.nil_prefix
  | cons c rest ih =>
    simp only [dropTrailingWs]
    split
    · exact List.nil_prefix
    · obtain ⟨t, ht⟩ := ih
      exact ⟨t, by rw [List.cons_append, ht]⟩

theorem pyStrip_sublist (l : List Char) : List.Sublist (pyStrip l) l :=
  (dropTrailingWs_sublist _).trans (List.dropWhile_sublist _)

theorem pyStrip_length_le (l : List Char) :
    (pyStrip l).length ≤ l.length :=
  (pyStrip_sublist l).length_le

theorem dropTrailingWs_idem (l : List Char) :
    dropTrailingWs (dropTrailingWs l) = dropTrailingWs l := by
  induction l with
  | nil => rfl
  | cons c rest ih =>
    simp only [dropTrailingWs]
    by_cases h : (dropTrailingWs rest).isEmpty = true ∧ pyIsSpace c = true
    · rw [if_pos (by simp [h.1, h.2])]
      rfl
    · rw [if_neg (by simpa using h)]
      simp only [dropTrailingWs, ih]
      rw [if_neg (by simpa using h)]

theorem dropTrailingWs_cons_eq {l : List Char} {c : Char} {r : List Char}
    (h : dropTrailingWs l = c :: r) : ∃ t, l = c :: t := by
  cases l with
  | nil => simp [dropTrailingWs] at h
  | cons a rest =>
    simp only [dropTrailingWs] at h
    split at h
    · cases h
    · cases h
      exact ⟨rest, rfl⟩

theorem dropWhile_head_not {p : Char → Bool} {l : List Char} {c : Char}
    {r : List Char} (h : l.dropWhile p = c :: r) : p c = false := by
  induction l with
  | nil => simp [List.dropWhile] at h
  | cons a rest ih =>
    rw [List.dropWhile_cons] at h
    by_cases hp : p a
    · rw [if_pos hp] at h
      exact ih h
    · rw [if_neg hp] at h
      cases h
      simpa using hp

theorem pyStrip_idem (l : List Char) : pyStrip (pyStrip l) = pyStrip l := by
  unfold pyStrip
  have h1 : List.dropWhile pyIsSpace
      (dropTrailingWs (List.dropWhile pyIsSpace l)) =
      dropTrailingWs (List.dropWhile pyIsSpace l) := by
    cases hd : dropTrailingWs (List.dropWhile pyIsSpace l) with
    | nil => rfl
    | cons c r =>
      obtain ⟨t, ht⟩ := dropTrailingWs_cons_eq hd
      have hc : pyIsSpace c = false := dropWhile_head_not ht
      rw [List.dropWhile_cons, if_neg (by simp [hc])]
  rw [h1, dropTrailingWs_idem]

theorem normalize_text_strip (s : List Char) :
    pyStrip (normalize_text s) = normalize_text s := by
  unfold normalize_text
  exact pyStrip_idem _

/- ------------------------------------------------------------------ -/
/- C3, C4: fallback and empty-input invariants.                       -/
/- ------------------------------------------------------------------ -/

/-- C3: for every input whose normalized text is non-empty, if the windowed
    heading/sentence-packing algorithm emits zero chunks, then
    split_into_clauses returns exactly one clause equal to the full
    normalized text. -/
theorem C3_fallback (s : List Char) (min_chars max_chars : Nat)
    (h1 : normalize_text s ≠ [])
    (h2 : split_core (normalize_text s) min_chars max_chars = []) :
    split_into_clauses s min_chars max_chars = [normalize_text s] := by
  simp [split_into_clauses, h2, h1]

theorem C3_fallback_witness :
    (normalize_text ("hi").data ≠ []) ∧
    split_core (normalize_text ("hi").data) 250 1100 = [] ∧
    split_into_clauses ("hi").data 250 1100 = [normalize_text ("hi").data] :=
  ⟨by decide, by decide, C3_fallback _ 250 1100 (by decide) (by decide)⟩

theorem packLoop_single_empty (min_chars max_chars : Nat)
    (hmin : 1 ≤ min_chars) : packLoop min_chars max_chars [[]] [] = [] := by
  by_cases hm : max_chars < 1 <;>
    simp [packLoop, flushChunk, joinSpace, pyStrip, dropTrailingWs, hm] <;>
    omega

/-- C4: for the empty input string, and any input whose normalized text is
    empty, split_into_clauses returns an empty sequence (for any positive
    min_chars; the default is 250) and the fallback does not fire. -/
theorem C4_empty_input (s : List Char) (min_chars max_chars : Nat)
    (h : normalize_text s = []) (hmin : 1 ≤ min_chars) :
    split_into_clauses s min_chars max_chars = [] := by
  have hsec : section_candidates [] = [[]] := by decide
  have hsent : sentence_candidates [] = [[]] := by decide
  have hcore : split_core [] min_chars max_chars = [] := by
    unfold split_core
    rw [hsec]
    show processPart min_chars max_chars [] ++ [] = []
    unfold processPart
    rw [hsent, packLoop_single_empty _ _ hmin]
    rfl
  simp [split_into_clauses, h, hcore]

theorem C4_empty_input_witness :
    normalize_text ("").data = [] ∧ 1 ≤ 250 ∧
    split_into_clauses ("").data 250 1100 = [] :=
  ⟨by decide, by decide, C4_empty_input _ 250 1100 (by decide) (by decide)⟩

/- ------------------------------------------------------------------ -/
/- C8: per-clause failure containment in the analysis loop.           -/
/- ------------------------------------------------------------------ -/

/-- C8: for every clause sequence and classifier, the analysis loop produces
    exactly one ClauseAnalysis per clause in original order, and a clause
    whose classification raises is replaced by the Review/2 sentinel whose
    meaning is "(Failed to analyze clause.)" and whose why embeds the failure
    detail; no per-clause failure aborts the batch. -/
theorem C8_partial_failure_containment
    (classify : List Char → Except (List Char) ClauseAnalysis)
    (chunks : List (List Char)) :
    (analysisLoop classify chunks).length = chunks.length ∧
    ∀ (k : Nat) (ch e : List Char), chunks[k]? = some ch →
      classify ch = Except.error e →
      (analysisLoop classify chunks)[k]? = some (failSentinel ch e) ∧
      (failSentinel ch e).risk_label = ("Review").data ∧
      (failSentinel ch e).risk_score = 2 ∧
      (failSentinel ch e).meaning = ("(Failed to analyze clause.)").data ∧
      (failSentinel ch e).why = ("Error: ").data ++ e := by
  refine ⟨by simp [analysisLoop], ?_⟩
  intro k ch e hk hc
  refine ⟨?_, rfl, rfl, rfl, rfl⟩
  simp [analysisLoop, List.getElem?_map, hk, hc]

theorem C8_partial_failure_containment_witness :
    ([("a").data, ("b").data][1]? = some (("b").data)) ∧
    demoClassify (("b").data) = Except.error (("boom").data) ∧
    (analysisLoop demoClassify [("a").data, ("b").data])[1]? =
      some (failSentinel (("b").data) (("boom").data)) :=
  ⟨by decide, by rfl,
    ((C8_partial_failure_containment demoClassify
        [("a").data, ("b").data]).2 1 (("b").data) (("boom").data)
      (by decide) (by rfl)).1⟩

/- ------------------------------------------------------------------ -/
/- The packing invariant: C1 (amended) and C2.                        -/
/- ------------------------------------------------------------------ -/

theorem joinSpace_append_singleton (buf : List (List Char)) (s : List Char) :
    joinSpace (buf ++ [s]) =
      if buf.isEmpty then s else joinSpace buf ++ ' ' :: s := by
  induction buf with
  | nil => rfl
  | cons x r ih =>
    cases r with
    | nil => rfl
    | cons y t =>
      have h2 : joinSpace ((x :: y :: t) ++ [s]) =
          x ++ ' ' :: joinSpace ((y :: t) ++ [s]) := rfl
      rw [h2, ih]
      simp [joinSpace, List.append_assoc]

theorem flushChunk_mem {min_chars : Nat} {buf : List (List Char)}
    {c : List Char} (hc : c ∈ flushChunk min_chars buf) :
    buf ≠ [] ∧ c = pyStrip (joinSpace buf) ∧ min_chars ≤ c.length := by
  simp only [flushChunk] at hc
  split at hc
  · simp at hc
  · next hb =>
    split at hc
    · next hm =>
      rw [List.mem_singleton] at hc
      subst hc
      refine ⟨?_, rfl, hm⟩
      intro h
      subst h
      simp at hb
    · simp at hc

theorem packLoop_mem_spec (min_chars max_chars : Nat) :
    ∀ (ss buf : List (List Char)),
      (buf = [] ∨ (joinSpace buf).length + 1 ≤ max_chars) →
      ∀ c ∈ packLoop min_chars max_chars ss buf,
        min_chars ≤ c.length ∧ pyStrip c = c ∧
        ∃ sent, (sent ∈ ss ∨ sent ∈ buf) ∧
          c.length ≤ max_chars + sent.length := by
  intro ss
  induction ss with
  | nil =>
    intro buf hinv c hc
    simp only [packLoop] at hc
    obtain ⟨hb, hcc, hm⟩ := flushChunk_mem hc
    obtain ⟨b, bs, rfl⟩ : ∃ b bs, buf = b :: bs := by
      cases buf with
      | nil => exact absurd rfl hb
      | cons b bs => exact ⟨b, bs, rfl⟩
    rcases hinv with hinv | hinv
    · cases hinv
    refine ⟨hm, by rw [hcc, pyStrip_idem], b, Or.inr (List.mem_cons_self b bs), ?_⟩
    have hlen : c.length ≤ (joinSpace (b :: bs)).length := by
      rw [hcc]
      exact pyStrip_length_le _
    omega
  | cons s rest ih =>
    intro buf hinv c hc
    simp only [packLoop] at hc
    split at hc
    · next hcond =>
      rw [List.mem_append] at hc
      rcases hc with hc | hc
      · obtain ⟨_, hcc, hm⟩ := flushChunk_mem hc
        refine ⟨hm, by rw [hcc, pyStrip_idem], s,
          Or.inl (List.mem_cons_self s rest), ?_⟩
        have hlen : c.length ≤ (joinSpace (buf ++ [s])).length := by
          rw [hcc]
          exact pyStrip_length_le _
        rw [joinSpace_append_singleton] at hlen
        by_cases hbe : buf.isEmpty
        · rw [if_pos hbe] at hlen
          omega
        · rw [if_neg hbe] at hlen
          rcases hinv with hinv | hinv
          · subst hinv
            simp at hbe
          · simp only [List.length_append, List.length_cons] at hlen
            omega
      · obtain ⟨h1, h2, sent, hs, hb⟩ := ih [] (Or.inl rfl) c hc
        rcases hs with hs | hs
        · exact ⟨h1, h2, sent, Or.inl (List.mem_cons_of_mem s hs), hb⟩
        · simp at hs
    · next hcond =>
      have hinv2 : buf ++ [s] = [] ∨
          (joinSpace (buf ++ [s])).length + 1 ≤ max_chars := by
        right
        simp only [List.length_cons, not_lt] at hcond
        omega
      obtain ⟨h1, h2, sent, hs, hb⟩ := ih (buf ++ [s]) hinv2 c hc
      rcases hs with hs | hs
      · exact ⟨h1, h2, sent, Or.inl (List.mem_cons_of_mem s hs), hb⟩
      · rw [List.mem_append] at hs
        rcases hs with hs | hs
        · exact ⟨h1, h2, sent, Or.inr hs, hb⟩
        · rw [List.mem_singleton] at hs
          subst hs
          exact ⟨h1, h2, sent, Or.inl (List.mem_cons_self _ _), hb⟩

/-- C1 counterexample: with min_chars = 0 (a legal parameter) the empty
    input yields one clause that is the empty string, so it is not true for
    every min_chars that every returned clause is non-empty. -/
theorem C1_counterexample : split_into_clauses ("").data 0 1100 = [[]] := by
  decide

/-- C1 (amended): for every input string and every min_chars ≥ 1 (the
    default is 250), every clause returned by split_into_clauses is
    non-empty and trimmed of leading and trailing whitespace, and every
    clause has length ≥ min_chars except when the result is the single
    fallback-whole-document clause. -/
theorem C1_amended_bounds (s : List Char) (min_chars max_chars : Nat)
    (hmin : 1 ≤ min_chars) :
    ∀ c ∈ split_into_clauses s min_chars max_chars,
      c ≠ [] ∧ pyStrip c = c ∧
        (min_chars ≤ c.length ∨
          split_into_clauses s min_chars max_chars = [normalize_text s]) := by
  intro c hc
  by_cases hcond : ((split_core (normalize_text s) min_chars
      max_chars).isEmpty && !(normalize_text s).isEmpty) = true
  · have hres : split_into_clauses s min_chars max_chars =
        [normalize_text s] := by
      simp only [split_into_clauses]
      rw [if_pos hcond]
    rw [hres, List.mem_singleton] at hc
    subst hc
    have ht : normalize_text s ≠ [] := by
      simp only [Bool.and_eq_true] at hcond
      obtain ⟨_, h2⟩ := hcond
      simp only [Bool.not_eq_true'] at h2
      intro h
      rw [h] at h2
      simp at h2
    exact ⟨ht, normalize_text_strip s, Or.inr hres⟩
  · have hres : split_into_clauses s min_chars max_chars =
        split_core (normalize_text s) min_chars max_chars := by
      simp only [split_into_clauses]
      rw [if_neg hcond]
    rw [hres] at hc
    unfold split_core at hc
    rw [List.mem_flatMap] at hc
    obtain ⟨part, _, hcp⟩ := hc
    unfold processPart at hcp
    obtain ⟨h1, h2, _, _, _⟩ :=
      packLoop_mem_spec min_chars max_chars (sentence_candidates part) []
        (Or.inl rfl) c hcp
    refine ⟨?_, h2, Or.inl h1⟩
    intro h
    subst h
    simp only [List.length_nil] at h1
    omega

theorem C1_amended_bounds_witness :
    1 ≤ 250 ∧ ("hello").data ∈ split_into_clauses ("hello").data 250 1100 ∧
    (("hello").data ≠ [] ∧ pyStrip ("hello").data = ("hello").data ∧
      (250 ≤ ("hello").data.length ∨
        split_into_clauses ("hello").data 250 1100 =
          [normalize_text ("hello").data])) :=
  ⟨by decide, by decide,
    C1_amended_bounds ("hello").data 250 1100 (by decide) ("hello").data
      (by decide)⟩

/-- C2: in the greedy packing, the buffer is measured after each appended
    sentence as one leading space plus the sentences joined by single
    spaces; on overflow the whole buffer including the triggering sentence
    is flushed (emitted only when its length reaches min_chars), so every
    structurally emitted clause has length at least min_chars and exceeds
    max_chars by at most the length of one of its sentence candidates.
    When the structural algorithm emits anything, split_into_clauses
    returns exactly those chunks. -/
theorem C2_overflow_window (s : List Char) (min_chars max_chars : Nat) :
    (split_core (normalize_text s) min_chars max_chars ≠ [] →
      split_into_clauses s min_chars max_chars =
        split_core (normalize_text s) min_chars max_chars) ∧
    ∀ c ∈ split_core (normalize_text s) min_chars max_chars,
      min_chars ≤ c.length ∧
      ∃ part ∈ section_candidates (normalize_text s),
        ∃ sent ∈ sentence_candidates part,
          c.length ≤ max_chars + sent.length := by
  constructor
  · intro hne
    simp only [split_into_clauses]
    rw [if_neg]
    intro h
    simp only [Bool.and_eq_true] at h
    obtain ⟨h1, _⟩ := h
    rw [List.isEmpty_iff] at h1
    exact hne h1
  · intro c hc
    unfold split_core at hc
    rw [List.mem_flatMap] at hc
    obtain ⟨part, hpart, hcp⟩ := hc
    unfold processPart at hcp
    obtain ⟨h1, _, sent, hs, hb⟩ :=
      packLoop_mem_spec min_chars max_chars (sentence_candidates part) []
        (Or.inl rfl) c hcp
    rcases hs with hs | hs
    · exact ⟨h1, part, hpart, sent, hs, hb⟩
    · simp at hs

theorem C2_overflow_window_witness :
    (split_core (normalize_text ("Pay now.").data) 1 1100 ≠ [] ∧
      split_into_clauses ("Pay now.").data 1 1100 =
        split_core (normalize_text ("Pay now.").data) 1 1100) ∧
    ("Pay now.").data ∈ split_core (normalize_text ("Pay now.").data) 1 1100 ∧
    (1 ≤ ("Pay now.").data.length ∧
      ∃ part ∈ section_candidates (normalize_text ("Pay now.").data),
        ∃ sent ∈ sentence_candidates part,
          ("Pay now.").data.length ≤ 1100 + sent.length) :=
  ⟨⟨by decide, (C2_overflow_window ("Pay now.").data 1 1100).1 (by decide)⟩,
    by decide, (C2_overflow_window ("Pay now.").data 1 1100).2
      ("Pay now.").data (by decide)⟩

/- ------------------------------------------------------------------ -/
/- C6: LLM response validation.                                       -/
/- ------------------------------------------------------------------ -/

theorem RISK_MAP_none {l : List Char} (h1 : l ≠ ("safe").data)
    (h2 : l ≠ ("review").data) (h3 : l ≠ ("risky").data) :
    RISK_MAP l = none := by
  simp [RISK_MAP, h1, h2, h3]

theorem resolveLabel_key (raw : Option (List Char)) :
    ∃ v, RISK_MAP (lowerStr (resolveLabel raw)) = some v ∧ 1 ≤ v ∧ v ≤ 3 := by
  unfold resolveLabel
  by_cases h : (RISK_MAP (lowerStr (pyStrip (raw.getD ("Review").data)))).isNone
  · rw [if_pos h]
    exact ⟨2, by decide, by decide, by decide⟩
  · rw [if_neg h]
    set L := lowerStr (pyStrip (raw.getD ("Review").data)) with hL
    by_cases h1 : L = ("safe").data
    · exact ⟨1, by rw [h1]; decide, by decide, by decide⟩
    by_cases h2 : L = ("review").data
    · exact ⟨2, by rw [h2]; decide, by decide, by decide⟩
    by_cases h3 : L = ("risky").data
    · exact ⟨3, by rw [h3]; decide, by decide, by decide⟩
    exact absurd (by rw [RISK_MAP_none h1 h2 h3]; rfl) h

theorem resolveScore_bounds (rawScore : Option Int) (label : List Char) :
    1 ≤ resolveScore rawScore label ∧ resolveScore rawScore label ≤ 3 := by
  unfold resolveScore
  omega

theorem resolveScore_none {label : List Char} {v : Int}
    (h : RISK_MAP (lowerStr label) = some v) (h1 : 1 ≤ v) (h3 : v ≤ 3) :
    resolveScore none label = v := by
  unfold resolveScore
  rw [h]
  simp only [Option.getD_none, Option.getD_some]
  omega

/-- C6 counterexample: a recognized raw label keeps its input casing, so the
    validated risk_label is not canonically cased: raw label "SAFE" is kept
    verbatim and equals none of Safe, Review, Risky. -/
theorem C6_counterexample :
    (analyze_with_llm_validate []
        { risk_label := some (("SAFE").data) }).risk_label = ("SAFE").data ∧
    (analyze_with_llm_validate []
        { risk_label := some (("SAFE").data) }).risk_label ∉
      [("Safe").data, ("Review").data, ("Risky").data] := by
  constructor
  · decide
  · decide

/-- C6 (amended): for every response, the validated risk_label matches one
    of Safe, Review, Risky case-insensitively (a recognized label keeps its
    input casing; an unrecognized or missing one becomes exactly "Review"),
    and risk_score is an integer clamped into [1,3], equal to the canonical
    RISK_MAP score of the resolved label when the raw score is absent. -/
theorem C6_amended_validation (clause : List Char) (data : LlmResponse) :
    (lowerStr (analyze_with_llm_validate clause data).risk_label =
        ("safe").data ∨
      lowerStr (analyze_with_llm_validate clause data).risk_label =
        ("review").data ∨
      lowerStr (analyze_with_llm_validate clause data).risk_label =
        ("risky").data) ∧
    1 ≤ (analyze_with_llm_validate clause data).risk_score ∧
    (analyze_with_llm_validate clause data).risk_score ≤ 3 ∧
    (data.risk_score = none →
      RISK_MAP (lowerStr (analyze_with_llm_validate clause data).risk_label)
        = some (analyze_with_llm_validate clause data).risk_score) := by
  have hlab : (analyze_with_llm_validate clause data).risk_label =
      resolveLabel data.risk_label := rfl
  have hsc : (analyze_with_llm_validate clause data).risk_score =
      resolveScore data.risk_score (resolveLabel data.risk_label) := rfl
  obtain ⟨v, hv, hv1, hv3⟩ := resolveLabel_key data.risk_label
  refine ⟨?_, ?_, ?_, ?_⟩
  · rw [hlab]
    by_cases h1 : lowerStr (resolveLabel data.risk_label) = ("safe").data
    · exact Or.inl h1
    by_cases h2 : lowerStr (resolveLabel data.risk_label) = ("review").data
    · exact Or.inr (Or.inl h2)
    by_cases h3 : lowerStr (resolveLabel data.risk_label) = ("risky").data
    · exact Or.inr (Or.inr h3)
    · rw [RISK_MAP_none h1 h2 h3] at hv
      cases hv
  · rw [hsc]
    exact (resolveScore_bounds _ _).1
  · rw [hsc]
    exact (resolveScore_bounds _ _).2
  · intro hnone
    rw [hlab, hsc, hnone, resolveScore_none hv hv1 hv3]
    exact hv

theorem C6_amended_validation_witness :
    ({ risk_label := some (("SAFE").data) } : LlmResponse).risk_score
      = none ∧
    RISK_MAP (lowerStr (analyze_with_llm_validate []
        { risk_label := some (("SAFE").data) }).risk_label) =
      some (analyze_with_llm_validate []
        { risk_label := some (("SAFE").data) }).risk_score :=
  ⟨rfl, (C6_amended_validation [] { risk_label := some (("SAFE").data) }
    ).2.2.2 rfl⟩

/- ------------------------------------------------------------------ -/
/- C7, C9: the heuristic keyword classifier.                          -/
/- ------------------------------------------------------------------ -/

theorem riskyFold_reasons (text : List Char) :
    ∀ (kws : List (List Char)) (st : MockState),
      (List.foldl (riskyStep text) st kws).reasons =
        st.reasons ++
          (kws.filter fun kw => decide (kw <:+: text)).map containsTpl := by
  intro kws
  induction kws with
  | nil => intro st; simp
  | cons kw rest ih =>
    intro st
    simp only [List.foldl_cons, List.filter_cons]
    by_cases h : kw <:+: text
    · simp [riskyStep, h, ih, List.append_assoc]
    · simp [riskyStep, h, ih]

theorem riskyFold_score (text : List Char) :
    ∀ (kws : List (List Char)) (st : MockState),
      (List.foldl (riskyStep text) st kws).score =
        if (kws.filter fun kw => decide (kw <:+: text)).isEmpty then st.score
        else 3 := by
  intro kws
  induction kws with
  | nil => intro st; simp
  | cons kw rest ih =>
    intro st
    simp only [List.foldl_cons, List.filter_cons]
    by_cases h : kw <:+: text
    · simp [riskyStep, h, ih]
    · simp [riskyStep, h, ih]

theorem riskyFold_label (text : List Char) :
    ∀ (kws : List (List Char)) (st : MockState),
      (List.foldl (riskyStep text) st kws).label =
        if (kws.filter fun kw => decide (kw <:+: text)).isEmpty then st.label
        else ("Risky").data := by
  intro kws
  induction kws with
  | nil => intro st; simp
  | cons kw rest ih =>
    intro st
    simp only [List.foldl_cons, List.filter_cons]
    by_cases h : kw <:+: text
    · simp [riskyStep, h, ih]
    · simp [riskyStep, h, ih]

theorem reviewFold_reasons (text : List Char) :
    ∀ (kws : List (List Char)) (st : MockState),
      (List.foldl (reviewStep text) st kws).reasons =
        st.reasons ++
          (kws.filter fun kw => decide (kw <:+: text)).map mentionsTpl := by
  intro kws
  induction kws with
  | nil => intro st; simp
  | cons kw rest ih =>
    intro st
    simp only [List.foldl_cons, List.filter_cons]
    by_cases h : kw <:+: text
    · simp [reviewStep, h, ih, List.append_assoc]
    · simp [reviewStep, h, ih]

theorem reviewFold_score (text : List Char) :
    ∀ (kws : List (List Char)) (st : MockState),
      (List.foldl (reviewStep text) st kws).score =
        if (kws.filter fun kw => decide (kw <:+: text)).isEmpty then st.score
        else max st.score 2 := by
  intro kws
  induction kws with
  | nil => intro st; simp
  | cons kw rest ih =>
    intro st
    simp only [List.foldl_cons, List.filter_cons]
    by_cases h : kw <:+: text
    · simp [reviewStep, h, ih]
    · simp [reviewStep, h, ih]

theorem reviewFold_label (text : List Char) :
    ∀ (kws : List (List Char)) (st : MockState),
      (List.foldl (reviewStep text) st kws).label =
        if (kws.filter fun kw => decide (kw <:+: text)).isEmpty then st.label
        else ("Review").data := by
  intro kws
  induction kws with
  | nil => intro st; simp
  | cons kw rest ih =>
    intro st
    simp only [List.foldl_cons, List.filter_cons]
    by_cases h : kw <:+: text
    · simp [reviewStep, h, ih]
    · simp [reviewStep, h, ih]

theorem mockScan_score (clause : List Char) :
    (mockScanState clause).score =
      if (riskyHits clause).isEmpty then
        (if (reviewHits clause).isEmpty then 1 else 2)
      else 3 := by
  unfold mockScanState riskyHits reviewHits
  by_cases hR : (RISKY_KEYWORDS.filter fun kw =>
      decide (kw <:+: lowerStr clause)).isEmpty
  · rw [if_pos (by rw [riskyFold_score _ _ _, if_pos hR]; decide)]
    rw [reviewFold_score, riskyFold_score, if_pos hR, if_pos hR]
    split <;> rfl
  · rw [if_neg (by rw [riskyFold_score _ _ _, if_neg hR]; decide)]
    rw [riskyFold_score, if_neg hR, if_neg hR]

theorem mockScan_label (clause : List Char) :
    (mockScanState clause).label =
      if (riskyHits clause).isEmpty then
        (if (reviewHits clause).isEmpty then ("Safe").data
          else ("Review").data)
      else ("Risky").data := by
  unfold mockScanState riskyHits reviewHits
  by_cases hR : (RISKY_KEYWORDS.filter fun kw =>
      decide (kw <:+: lowerStr clause)).isEmpty
  · rw [if_pos (by rw [riskyFold_score _ _ _, if_pos hR]; decide)]
    rw [reviewFold_label, riskyFold_label, if_pos hR, if_pos hR]
  · rw [if_neg (by rw [riskyFold_score _ _ _, if_neg hR]; decide)]
    rw [riskyFold_label, if_neg hR, if_neg hR]

theorem mockScan_reasons (clause : List Char) :
    (mockScanState clause).reasons =
      (riskyHits clause).map containsTpl ++
        (if (riskyHits clause).isEmpty then
          (reviewHits clause).map mentionsTpl
         else []) := by
  unfold mockScanState riskyHits reviewHits
  by_cases hR : (RISKY_KEYWORDS.filter fun kw =>
      decide (kw <:+: lowerStr clause)).isEmpty
  · rw [if_pos (by rw [riskyFold_score _ _ _, if_pos hR]; decide)]
    rw [reviewFold_reasons, riskyFold_reasons, if_pos hR]
    rw [List.isEmpty_iff.mp hR]
    simp
  · rw [if_neg (by rw [riskyFold_score _ _ _, if_neg hR]; decide)]
    rw [riskyFold_reasons, if_neg hR]
    simp

theorem joinSpace_infix_of_mem {x : List Char} {rs : List (List Char)}
    (hx : x ∈ rs) : x <:+: joinSpace rs := by
  induction rs with
  | nil => simp at hx
  | cons s rest ih =>
    cases rest with
    | nil =>
      rw [List.mem_singleton] at hx
      subst hx
      exact List.infix_refl _
    | cons t ss =>
      rcases List.mem_cons.mp hx with rfl | hx
      · exact (List.prefix_append x (' ' :: joinSpace (t :: ss))).isInfix
      · refine (ih hx).trans ?_
        refine List.IsSuffix.isInfix ?_
        exact (List.suffix_cons ' ' _).trans (List.suffix_append _ _)

/-- C9: the heuristic classifier never produces a label/score disagreement:
    on every input the returned pair is exactly (Safe, 1), (Review, 2) or
    (Risky, 3) under the canonical mapping. -/
theorem C9_mock_label_score_consistent (clause focus jurisdiction :
    List Char) :
    ((mock_analyze clause focus jurisdiction).risk_label = ("Safe").data ∧
      (mock_analyze clause focus jurisdiction).risk_score = 1) ∨
    ((mock_analyze clause focus jurisdiction).risk_label = ("Review").data ∧
      (mock_analyze clause focus jurisdiction).risk_score = 2) ∨
    ((mock_analyze clause focus jurisdiction).risk_label = ("Risky").data ∧
      (mock_analyze clause focus jurisdiction).risk_score = 3) := by
  have hl : (mock_analyze clause focus jurisdiction).risk_label =
      (mockScanState clause).label := rfl
  have hs : (mock_analyze clause focus jurisdiction).risk_score =
      (mockScanState clause).score := rfl
  rw [hl, hs, mockScan_label, mockScan_score]
  by_cases hR : (riskyHits clause).isEmpty <;>
    by_cases hV : (reviewHits clause).isEmpty <;>
      simp [hR, hV]

/-- C7: a clause containing the substring "indemnify" is classified Risky
    with score 3 and a why text containing "indemnify" by mock_analyze; the
    risky scan accumulates one reason per matched risky keyword (it does not
    stop at the first match), and review keywords contribute reasons only
    when no risky keyword matched (score still below 3). -/
theorem C7_indemnify_risky (clause focus jurisdiction : List Char) :
    (("indemnify").data <:+: clause →
      (mock_analyze clause focus jurisdiction).risk_label = ("Risky").data ∧
      (mock_analyze clause focus jurisdiction).risk_score = 3 ∧
      ("indemnify").data <:+:
        (mock_analyze clause focus jurisdiction).why) ∧
    (mockScanState clause).reasons =
      (riskyHits clause).map containsTpl ++
        (if (riskyHits clause).isEmpty then
          (reviewHits clause).map mentionsTpl
         else []) := by
  refine ⟨?_, mockScan_reasons clause⟩
  intro h
  have hlow : ("indemnify").data <:+: lowerStr clause := by
    have he : lowerStr (("indemnify").data) = ("indemnify").data := by decide
    rw [← he]
    exact h.map Char.toLower
  have hmem : ("indemnify").data ∈ riskyHits clause := by
    unfold riskyHits
    rw [List.mem_filter]
    exact ⟨by decide, by simpa using hlow⟩
  have hne : (riskyHits clause).isEmpty = false := by
    cases hh : riskyHits clause with
    | nil => rw [hh] at hmem; simp at hmem
    | cons a l => rfl
  have hl : (mock_analyze clause focus jurisdiction).risk_label =
      (mockScanState clause).label := rfl
  have hs : (mock_analyze clause focus jurisdiction).risk_score =
      (mockScanState clause).score := rfl
  have htpl : containsTpl (("indemnify").data) ∈
      (mockScanState clause).reasons := by
    rw [mockScan_reasons, hne]
    simp only [Bool.false_eq_true, if_false, List.append_nil]
    exact List.mem_map_of_mem containsTpl hmem
  have hinf : ("indemnify").data <:+:
      joinSpace (mockScanState clause).reasons :=
    (by decide : ("indemnify").data <:+:
      containsTpl (("indemnify").data)).trans
      (joinSpace_infix_of_mem htpl)
  have hwhy : (mock_analyze clause focus jurisdiction).why =
      if (joinSpace (mockScanState clause).reasons).isEmpty then
        NO_RED_FLAGS
      else joinSpace (mockScanState clause).reasons := rfl
  refine ⟨?_, ?_, ?_⟩
  · rw [hl, mockScan_label, hne]
    simp
  · rw [hs, mockScan_score, hne]
    simp
  · rw [hwhy]
    have hje : (joinSpace (mockScanState clause).reasons).isEmpty = false := by
      cases hj : joinSpace (mockScanState clause).reasons with
      | nil =>
        rw [hj] at hinf
        have := hinf.length_le
        simp at this
      | cons a l => rfl
    rw [hje]
    simpa using hinf

theorem C7_indemnify_risky_witness :
    (("indemnify").data <:+: ("You must indemnify us.").data) ∧
    ((mock_analyze ("You must indemnify us.").data [] []).risk_label =
        ("Risky").data ∧
      (mock_analyze ("You must indemnify us.").data [] []).risk_score = 3 ∧
      ("indemnify").data <:+:
        (mock_analyze ("You must indemnify us.").data [] []).why) :=
  ⟨by decide,
    (C7_indemnify_risky ("You must indemnify us.").data [] []).1
      (by decide)⟩

/- ------------------------------------------------------------------ -/
/- C10: idempotence of normalize_text.                                -/
/- ------------------------------------------------------------------ -/

theorem pyStrip_within (l : List Char) : pyStrip l <:+: l :=
  (dropTrailingWs_front _).isInfix.trans
    (List.dropWhile_suffix pyIsSpace).isInfix

theorem triple_infix_replicate {k : Nat} (hk : 3 ≤ k) (l : List Char) :
    ('\n' :: '\n' :: ['\n']) <:+: List.replicate k '\n' ++ l := by
  obtain ⟨m, rfl⟩ : ∃ m, k = 3 + m := ⟨k - 3, by omega⟩
  rw [List.replicate_add]
  exact ((List.prefix_append _ _).trans (List.prefix_append _ _)).isInfix

theorem collapseAux_noTriple :
    ∀ (l : List Char) (k : Nat),
      ¬ ('\n' :: '\n' :: ['\n']) <:+: collapseAux k l := by
  intro l
  induction l with
  | nil =>
    intro k
    simp only [collapseAux]
    intro hc
    have h1 := hc.length_le
    rw [List.length_replicate] at h1
    simp only [List.length_cons, List.length_nil] at h1
    split at h1 <;> omega
  | cons c rest ih =>
    intro k
    simp only [collapseAux]
    by_cases hc : c == '\n'
    · rw [if_pos hc]
      exact ih (k + 1)
    · rw [if_neg hc]
      have hcn : c ≠ '\n' := by simpa using hc
      have hX := ih 0
      have hm : (if 3 ≤ k then 2 else k) ≤ 2 := by split <;> omega
      set m := if 3 ≤ k then 2 else k with hmdef
      clear_value m
      intro h
      interval_cases m
      · rcases List.infix_cons_iff.mp (by simpa using h) with hp | h2
        · rcases List.cons_prefix_cons.mp hp with ⟨h3, _⟩
          exact hcn h3.symm
        · exact hX h2
      · rcases List.infix_cons_iff.mp (by simpa using h) with hp | h2
        · rcases List.cons_prefix_cons.mp hp with ⟨_, hp⟩
          rcases List.cons_prefix_cons.mp hp with ⟨h3, _⟩
          exact hcn h3.symm
        · rcases List.infix_cons_iff.mp h2 with hp | h3
          · rcases List.cons_prefix_cons.mp hp with ⟨h3, _⟩
            exact hcn h3.symm
          · exact hX h3
      · rcases List.infix_cons_iff.mp (by simpa [List.replicate] using h)
          with hp | h2
        · rcases List.cons_prefix_cons.mp hp with ⟨_, hp⟩
          rcases List.cons_prefix_cons.mp hp with ⟨_, hp⟩
          rcases List.cons_prefix_cons.mp hp with ⟨h3, _⟩
          exact hcn h3.symm
        · rcases List.infix_cons_iff.mp h2 with hp | h3
          · rcases List.cons_prefix_cons.mp hp with ⟨_, hp⟩
            rcases List.cons_prefix_cons.mp hp with ⟨h3, _⟩
            exact hcn h3.symm
          · rcases List.infix_cons_iff.mp h3 with hp | h4
            · rcases List.cons_prefix_cons.mp hp with ⟨h3, _⟩
              exact hcn h3.symm
            · exact hX h4

theorem collapseAux_id :
    ∀ (l : List Char) (k : Nat),
      ¬ ('\n' :: '\n' :: ['\n']) <:+: (List.replicate k '\n' ++ l) →
      collapseAux k l = List.replicate k '\n' ++ l := by
  intro l
  induction l with
  | nil =>
    intro k h
    have hk : ¬ 3 ≤ k := fun h3 => h (triple_infix_replicate h3 [])
    simp only [collapseAux, if_neg hk, List.append_nil]
  | cons c rest ih =>
    intro k h
    simp only [collapseAux]
    by_cases hc : c == '\n'
    · rw [if_pos hc]
      have hc2 : c = '\n' := by simpa using hc
      subst hc2
      have hrw : List.replicate k '\n' ++ '\n' :: rest =
          List.replicate (k + 1) '\n' ++ rest := by
        rw [List.replicate_succ', List.append_assoc]
        rfl
      rw [hrw] at h ⊢
      exact ih (k + 1) h
    · rw [if_neg hc]
      have hk : ¬ 3 ≤ k := fun h3 => h (triple_infix_replicate h3 _)
      rw [if_neg hk]
      have hrest : ¬ ('\n' :: '\n' :: ['\n']) <:+: rest := by
        intro h4
        exact h (h4.trans (((List.suffix_cons c rest).trans
          (List.suffix_append _ _)).isInfix))
      rw [ih 0 (by simpa using hrest)]
      rfl

theorem replaceCR_not_mem (l : List Char) : '\r' ∉ replaceCR l := by
  unfold replaceCR
  rw [List.mem_map]
  rintro ⟨a, _, ha⟩
  by_cases h : a == '\r'
  · simp [h] at ha
  · simp [h] at ha
    simp_all

theorem collapseAux_not_mem_cr :
    ∀ (l : List Char) (k : Nat), '\r' ∉ l → '\r' ∉ collapseAux k l := by
  intro l
  induction l with
  | nil =>
    intro k _
    simp only [collapseAux]
    intro hm
    have := List.eq_of_mem_replicate hm
    cases this
  | cons c rest ih =>
    intro k hl
    simp only [collapseAux]
    by_cases hc : c == '\n'
    · rw [if_pos hc]
      exact ih (k + 1) fun hm => hl (List.mem_cons_of_mem c hm)
    · rw [if_neg hc]
      intro hm
      rcases List.mem_append.mp hm with hm | hm
      · cases List.eq_of_mem_replicate hm
      · rcases List.mem_cons.mp hm with hm | hm
        · exact hl (hm ▸ List.mem_cons_self c rest)
        · exact ih 0 (fun h2 => hl (List.mem_cons_of_mem c h2)) hm

theorem replaceCR_id {l : List Char} (h : '\r' ∉ l) : replaceCR l = l := by
  induction l with
  | nil => rfl
  | cons c rest ih =>
    unfold replaceCR
    simp only [List.map_cons]
    have hc : (c == '\r') = false := by
      simp only [beq_eq_false_iff_ne, ne_eq]
      intro hcc
      exact h (hcc ▸ List.mem_cons_self c rest)
    rw [if_neg (by simp [hc])]
    rw [show List.map (fun c => if c == '\r' then '\n' else c) rest
      = replaceCR rest from rfl]
    rw [ih fun hm => h (List.mem_cons_of_mem c hm)]

/-- C10: normalize_text is idempotent, so re-normalizing inside
    split_into_clauses after the caller already normalized changes
    nothing. -/
theorem C10_normalize_idempotent (s : List Char) :
    normalize_text (normalize_text s) = normalize_text s := by
  have hcr : '\r' ∉ normalize_text s := by
    unfold normalize_text
    intro hm
    exact collapseAux_not_mem_cr (replaceCR s) 0 (replaceCR_not_mem s)
      ((pyStrip_sublist _).mem hm)
  have hnt : ¬ ('\n' :: '\n' :: ['\n']) <:+: normalize_text s := by
    unfold normalize_text
    intro hm
    exact collapseAux_noTriple (replaceCR s) 0 (hm.trans (pyStrip_within _))
  show pyStrip (collapseAux 0 (replaceCR (normalize_text s))) =
    normalize_text s
  rw [replaceCR_id hcr, collapseAux_id _ 0 (by simpa using hnt)]
  simpa using normalize_text_strip s

/- ------------------------------------------------------------------ -/
/- C5: order-preserving coverage of the emitted clauses.              -/
/- ------------------------------------------------------------------ -/

theorem SubseqWs.rfl (l : List Char) : SubseqWs l l := by
  induction l with
  | nil => exact SubseqWs.nil []
  | cons c rest ih => exact SubseqWs.keep c ih

theorem SubseqWs.weaken (x : List Char) {a b : List Char}
    (h : SubseqWs a b) : SubseqWs a (x ++ b) := by
  induction x with
  | nil => exact h
  | cons c rest ih => exact SubseqWs.skip c ih

theorem SubseqWs.of_sublist {a b : List Char} (h : List.Sublist a b) :
    SubseqWs a b := by
  induction h with
  | slnil => exact SubseqWs.nil []
  | cons c _ ih => exact SubseqWs.skip c ih
  | cons₂ c _ ih => exact SubseqWs.keep c ih

theorem SubseqWs.append {a₁ b₁ a₂ b₂ : List Char} (h1 : SubseqWs a₁ b₁)
    (h2 : SubseqWs a₂ b₂) : SubseqWs (a₁ ++ a₂) (b₁ ++ b₂) := by
  induction h1 with
  | nil l => exact h2.weaken l
  | keep c _ ih => exact SubseqWs.keep c ih
  | skip c _ ih => exact SubseqWs.skip c ih
  | wsSub c hc _ ih => exact SubseqWs.wsSub c hc ih

theorem SubseqWs.sublist_right_aux {b c : List Char}
    (h2 : List.Sublist b c) :
    ∀ {a : List Char}, SubseqWs a b → SubseqWs a c := by
  induction h2 with
  | slnil => exact fun h1 => h1
  | cons x _ ih => exact fun h1 => SubseqWs.skip x (ih h1)
  | cons₂ x _ ih =>
    intro a h1
    cases h1 with
    | nil => exact SubseqWs.nil _
    | keep _ h => exact SubseqWs.keep x (ih h)
    | skip _ h => exact SubseqWs.skip x (ih h)
    | wsSub _ hc h => exact SubseqWs.wsSub x hc (ih h)

theorem SubseqWs.sublist_right {a b c : List Char} (h1 : SubseqWs a b)
    (h2 : List.Sublist b c) : SubseqWs a c :=
  SubseqWs.sublist_right_aux h2 h1

theorem SubseqWs.sublist_left_aux {b c : List Char} (h2 : SubseqWs b c) :
    ∀ {a : List Char}, List.Sublist a b → SubseqWs a c := by
  induction h2 with
  | nil l =>
    intro a h1
    rw [List.sublist_nil.mp h1]
    exact SubseqWs.nil _
  | keep x _ ih =>
    intro a h1
    rcases List.sublist_cons_iff.mp h1 with hr | ⟨r, rfl, hr⟩
    · exact SubseqWs.skip x (ih hr)
    · exact SubseqWs.keep x (ih hr)
  | skip x _ ih =>
    intro a h1
    exact SubseqWs.skip x (ih h1)
  | wsSub x hx _ ih =>
    intro a h1
    rcases List.sublist_cons_iff.mp h1 with hr | ⟨r, rfl, hr⟩
    · exact SubseqWs.skip x (ih hr)
    · exact SubseqWs.wsSub x hx (ih hr)

theorem SubseqWs.sublist_left {a b c : List Char} (h1 : List.Sublist a b)
    (h2 : SubseqWs b c) : SubseqWs a c :=
  SubseqWs.sublist_left_aux h2 h1

theorem Interleaved.ne_nil {ss : List (List Char)} {q : List Char}
    (h : Interleaved ss q) : ss ≠ [] := by
  cases h <;> simp

theorem Interleaved.joinSpace_subseq {ss : List (List Char)} {q : List Char}
    (h : Interleaved ss q) : SubseqWs (joinSpace ss) q := by
  induction h with
  | single s => exact SubseqWs.rfl s
  | cons s w hw hne hi ih =>
    rename_i ss₀ q₀
    obtain ⟨t, ss₁, rfl⟩ : ∃ t ss₁, ss₀ = t :: ss₁ := by
      cases ss₀ with
      | nil => exact absurd rfl hi.ne_nil
      | cons t ss₁ => exact ⟨t, ss₁, rfl⟩
    obtain ⟨wc, w', rfl⟩ : ∃ wc w', w = wc :: w' := by
      cases w with
      | nil => exact absurd rfl hne
      | cons wc w' => exact ⟨wc, w', rfl⟩
    rw [List.append_assoc]
    exact (SubseqWs.rfl s).append
      (SubseqWs.wsSub wc (hw wc (List.mem_cons_self _ _)) (ih.weaken w'))

theorem Interleaved.split {xs ys : List (List Char)} {q : List Char}
    (h : Interleaved (xs ++ ys) q) (hxs : xs ≠ []) (hys : ys ≠ []) :
    ∃ q1 w q2, q = q1 ++ w ++ q2 ∧ (∀ c ∈ w, pyIsSpace c = true) ∧
      w ≠ [] ∧ Interleaved xs q1 ∧ Interleaved ys q2 := by
  induction xs generalizing q with
  | nil => exact absurd rfl hxs
  | cons x xs ih =>
    by_cases hxe : xs = []
    · subst hxe
      cases h with
      | single s => exact absurd rfl hys
      | cons s w hw hne hi =>
        exact ⟨x, w, _, rfl, hw, hne, Interleaved.single x, hi⟩
    · obtain ⟨z, zs, hzs⟩ : ∃ z zs, xs ++ ys = z :: zs := by
        cases hzz : xs ++ ys with
        | nil => exact absurd (List.append_eq_nil.mp hzz).1 hxe
        | cons z zs => exact ⟨z, zs, rfl⟩
      rw [List.cons_append, hzs] at h
      cases h with
      | cons s w hw hne hi =>
        rw [← hzs] at hi
        obtain ⟨q1, w1, q2, heq, hw1, hne1, hx1, hy2⟩ := ih hi hxe
        refine ⟨x ++ w ++ q1, w1, q2, ?_, hw1, hne1, ?_, hy2⟩
        · rw [heq]
          simp [List.append_assoc]
        · exact Interleaved.cons x w hw hne hx1

theorem flushChunk_subseq {min_chars : Nat} {buf : List (List Char)}
    {q : List Char} (h : Interleaved buf q) :
    SubseqWs (List.flatten (flushChunk min_chars buf)) q := by
  simp only [flushChunk]
  split
  · exact SubseqWs.nil q
  · split
    · have hf : List.flatten [pyStrip (joinSpace buf)] =
          pyStrip (joinSpace buf) := by simp
      rw [hf]
      exact SubseqWs.sublist_left (pyStrip_sublist _) h.joinSpace_subseq
    · exact SubseqWs.nil q

theorem packLoop_subseq (min_chars max_chars : Nat) :
    ∀ (ss buf : List (List Char)) (q : List Char),
      Interleaved (buf ++ ss) q →
      SubseqWs (List.flatten (packLoop min_chars max_chars ss buf)) q := by
  intro ss
  induction ss with
  | nil =>
    intro buf q h
    rw [List.append_nil] at h
    simp only [packLoop]
    exact flushChunk_subseq h
  | cons s rest ih =>
    intro buf q h
    simp only [packLoop]
    split
    · rw [List.flatten_append]
      by_cases hre : rest = []
      · subst hre
        have h3 : packLoop min_chars max_chars [] ([] : List (List Char))
            = [] := rfl
        rw [h3]
        simp only [List.flatten_nil, List.append_nil]
        exact flushChunk_subseq h
      · have h' : Interleaved ((buf ++ [s]) ++ rest) q := by
          rw [List.append_assoc]
          exact h
        obtain ⟨q1, w, q2, rfl, hw, hne, h1, h2⟩ :=
          h'.split (by simp) hre
        rw [List.append_assoc]
        exact (flushChunk_subseq h1).append
          ((ih [] q2 h2).weaken w)
    · refine ih (buf ++ [s]) q ?_
      rw [List.append_assoc]
      exact h

theorem splitAuxF_interleaved
    (m : Option Char → List Char → Option Nat)
    (hm : ∀ prev u n, m prev u = some n →
      1 ≤ n ∧ ∀ c ∈ u.take n, pyIsSpace c = true) :
    ∀ (fuel : Nat) (prev : Option Char) (acc l : List Char),
      Interleaved (splitAuxF m fuel prev acc l) (acc ++ l) := by
  intro fuel
  induction fuel with
  | zero =>
    intro prev acc l
    exact Interleaved.single (acc ++ l)
  | succ fuel ih =>
    intro prev acc l
    cases l with
    | nil =>
      rw [List.append_nil]
      exact Interleaved.single acc
    | cons c rest =>
      cases hmm : m prev (c :: rest) with
      | none =>
        simp only [splitAuxF, hmm]
        have h2 := ih (some c) (acc ++ [c]) rest
        rw [List.append_assoc] at h2
        exact h2
      | some n =>
        obtain ⟨hn1, hws⟩ := hm prev (c :: rest) n hmm
        simp only [splitAuxF, hmm]
        have hrec := ih (some (((c :: rest).take n).getLastD c)) []
          (rest.drop (n - 1))
        rw [List.nil_append] at hrec
        have hd : List.drop n (c :: rest) = rest.drop (n - 1) := by
          obtain ⟨n', rfl⟩ : ∃ n', n = n' + 1 := ⟨n - 1, by omega⟩
          simp [List.drop_succ_cons]
        have htk : (c :: rest).take n ++ rest.drop (n - 1) = c :: rest := by
          rw [← hd, List.take_append_drop]
        have hwne : (c :: rest).take n ≠ [] := by
          obtain ⟨n', rfl⟩ : ∃ n', n = n' + 1 := ⟨n - 1, by omega⟩
          simp [List.take_succ_cons]
        have h3 := Interleaved.cons acc ((c :: rest).take n) hws hwne hrec
        rw [List.append_assoc, htk] at h3
        exact h3

theorem splitAuxF_concat_subseq
    (m : Option Char → List Char → Option Nat)
    (f : List Char → List Char) (hf : ∀ p, SubseqWs (f p) p) :
    ∀ (fuel : Nat) (prev : Option Char) (acc l : List Char),
      SubseqWs (List.flatten ((splitAuxF m fuel prev acc l).map f))
        (acc ++ l) := by
  intro fuel
  induction fuel with
  | zero =>
    intro prev acc l
    have h0 : List.flatten (List.map f (splitAuxF m 0 prev acc l)) =
        f (acc ++ l) := by simp [splitAuxF]
    rw [h0]
    exact hf _
  | succ fuel ih =>
    intro prev acc l
    cases l with
    | nil =>
      rw [List.append_nil]
      have h0 : List.flatten (List.map f (splitAuxF m (fuel + 1) prev acc
          [])) = f acc := by simp [splitAuxF]
      rw [h0]
      exact hf _
    | cons c rest =>
      cases hmm : m prev (c :: rest) with
      | none =>
        simp only [splitAuxF, hmm]
        have h2 := ih (some c) (acc ++ [c]) rest
        rw [List.append_assoc] at h2
        exact h2
      | some n =>
        simp only [splitAuxF, hmm, List.map_cons, List.flatten_cons]
        have hrec := ih (some (((c :: rest).take n).getLastD c)) []
          (rest.drop (n - 1))
        rw [List.nil_append] at hrec
        have h2 := hrec.sublist_right
          ((List.drop_sublist _ _).trans (List.sublist_cons_self c rest))
        exact (hf acc).append h2

theorem sentMatch_spec :
    ∀ (prev : Option Char) (u : List Char) (n : Nat),
      sentMatch prev u = some n →
      1 ≤ n ∧ ∀ c ∈ u.take n, pyIsSpace c = true := by
  intro prev u n h
  cases prev with
  | none => simp [sentMatch] at h
  | some pch =>
    simp only [sentMatch] at h
    split at h
    · split at h
      · cases h
      · next hw =>
        injection h with h2
        subst h2
        constructor
        · have hne : u.takeWhile pyIsSpace ≠ [] := by
            intro he
            rw [he] at hw
            simp at hw
          cases hlen : u.takeWhile pyIsSpace with
          | nil => exact absurd hlen hne
          | cons a t => simp
        · intro c hc
          have htw : List.take (u.takeWhile pyIsSpace).length u =
              u.takeWhile pyIsSpace :=
            (List.prefix_iff_eq_take.mp (List.takeWhile_prefix _)).symm
          rw [htw] at hc
          exact List.mem_takeWhile_imp hc
    · cases h

theorem split_core_subseq (t : List Char) (min_chars max_chars : Nat) :
    SubseqWs (List.flatten (split_core t min_chars max_chars)) t := by
  have hf : ∀ p, SubseqWs
      (List.flatten (processPart min_chars max_chars p)) p := by
    intro p
    have hU : Interleaved (sentence_candidates p) (pyStrip p) := by
      have h2 := splitAuxF_interleaved sentMatch sentMatch_spec
        (pyStrip p).length none [] (pyStrip p)
      rw [List.nil_append] at h2
      exact h2
    exact (packLoop_subseq min_chars max_chars (sentence_candidates p) []
      (pyStrip p) hU).sublist_right (pyStrip_sublist p)
  have hflat : List.flatten ((section_candidates t).flatMap
      (processPart min_chars max_chars)) =
      List.flatten ((section_candidates t).map
        (fun p => List.flatten (processPart min_chars max_chars p))) := by
    rw [List.flatMap_def, List.flatten_flatten, List.map_map]
    rfl
  unfold split_core
  rw [hflat]
  have h3 := splitAuxF_concat_subseq partMatch
    (fun p => List.flatten (processPart min_chars max_chars p)) hf
    t.length none [] t
  rw [List.nil_append] at h3
  exact h3

/-- C5 counterexample: the clause join replaces the newline of the sentence
    boundary by a space, so the concatenated clauses are not a character
    subsequence of the normalized input. -/
theorem C5_counterexample :
    ¬ List.Sublist
      (List.flatten (split_into_clauses ("a.\nb").data 1 1100))
      (normalize_text ("a.\nb").data) := by decide

/-- C5 (amended): for every input, the concatenation of all emitted clauses
    in emission order is obtained from the normalized input by deleting
    characters and replacing single whitespace characters by single spaces,
    with no reordering and no duplication (the SubseqWs relation). -/
theorem C5_amended_coverage (s : List Char) (min_chars max_chars : Nat) :
    SubseqWs (List.flatten (split_into_clauses s min_chars max_chars))
      (normalize_text s) := by
  simp only [split_into_clauses]
  split
  · simp only [List.flatten_cons, List.flatten_nil, List.append_nil]
    exact SubseqWs.rfl _
  · exact split_core_subseq _ _ _
